import Mathlib

/-!
Verification development for the stellar practical-ml-on-graphs notebooks.
The repository's own code consists of two notebooks: the edge-feature
operators and `transform` are embedded directly from the notebook source;
the stellargraph library components they call (`EdgeSplitter`,
`BiasedRandomWalk`, the GraphSAGE link generator) are not part of the
repository's source, so they are modelled from the specification, with
randomness made explicit as injectable choice streams.
-/

deriving instance DecidableEq for Except

/-- Modelled from the spec (section 3, Graph): a simple undirected graph as a
set of node identifiers and a set of undirected edges, each an unordered pair
of distinct nodes.  Edges are stored as ordered pairs; adjacency treats them
as unordered.  The notebooks use unweighted graphs, so the default edge
weight is 1 and weights are threaded separately into the walk sampler. -/
structure Graph where
  nodes : List Nat
  edges : List (Nat × Nat)
deriving DecidableEq, Repr

/-- Two ordered pairs denote the same undirected edge. -/
def sameEdge (e f : Nat × Nat) : Bool :=
  (e.1 == f.1 && e.2 == f.2) || (e.1 == f.2 && e.2 == f.1)

/-- Modelled from the spec (Graph Store `has_edge`): whether the unordered
pair {a,b} is an edge of the graph. -/
def hasEdgeB (g : Graph) (a b : Nat) : Bool :=
  g.edges.any (fun e => sameEdge e (a, b))

/-- Modelled from the spec (Graph Store `neighbors`): the neighbours of a
node, read off the node list. -/
def nbrs (g : Graph) (v : Nat) : List Nat :=
  g.nodes.filter (fun x => hasEdgeB g v x)

/-- Remove the undirected edge e from the graph, leaving nodes untouched. -/
def removeEdge (g : Graph) (e : Nat × Nat) : Graph :=
  { g with edges := g.edges.filter (fun f => !sameEdge f e) }

/-- One breadth step of reachability: a set of nodes together with all their
neighbours. -/
def stepSet (g : Graph) (s : List Nat) : List Nat :=
  (s ++ s.flatMap (nbrs g)).dedup

/-- Iterated breadth steps. -/
def reachN (g : Graph) : Nat → List Nat → List Nat
  | 0, s => s
  | k + 1, s => reachN g k (stepSet g s)

/-- Modelled from the spec (Graph Store connectivity test): b is reachable
from a within |nodes| breadth steps. -/
def reachableB (g : Graph) (a b : Nat) : Bool :=
  (reachN g g.nodes.length [a]).contains b

/-- Modelled from the spec: number of connected components, counted as the
nodes not reachable from any earlier node in the node list. -/
def countComponents (g : Graph) : Nat :=
  (g.nodes.enum.filter
    (fun iu => !((g.nodes.take iu.1).any (fun u => reachableB g u iu.2)))).length

/-- Modelled from the spec (Edge Sample Set invariant): the target positive
sample count `round(p * m)`, with rounding computed on the fraction's
numerator and denominator so that it evaluates inside the kernel. -/
def numTarget (p : ℚ) (m : Nat) : Nat :=
  (Int.ediv (2 * p.num * (m : ℤ) + (p.den : ℤ)) (2 * (p.den : ℤ))).toNat

/-- Modelled from the spec (section 7): error kinds of the edge splitter. -/
inductive SplitError where
  | insufficientEdges (removed : Nat)
  | insufficientNonEdges
deriving DecidableEq, Repr

/-- Modelled from the spec (section 4.2, missing library code
`EdgeSplitter`): the positive-sample loop.  Candidate edges are drawn
without replacement from the stream `cands`; a candidate is removed only if
it is still an edge of the current reduced graph and, when `keep` is set,
its removal preserves the number of connected components.  The loop stops
when the countdown `k` reaches the target, and fails with
`InsufficientEdgesError` (reporting how many edges were removed) when the
candidates are exhausted first. -/
def EdgeSplitter.posLoop (keep : Bool) :
    List (Nat × Nat) → Graph → List (Nat × Nat) → Nat →
    Except SplitError (Graph × List (Nat × Nat))
  | _, g, acc, 0 => .ok (g, acc)
  | [], _, acc, _ + 1 => .error (.insufficientEdges acc.length)
  | e :: rest, g, acc, k + 1 =>
    if hasEdgeB g e.1 e.2 &&
        (!keep || countComponents (removeEdge g e) == countComponents g) then
      EdgeSplitter.posLoop keep rest (removeEdge g e) (acc ++ [e]) k
    else
      EdgeSplitter.posLoop keep rest g acc (k + 1)

/-- Modelled from the spec (section 4.2, missing library code): the
negative-sample loop.  Candidate pairs are drawn from the stream; a pair is
accepted if the two nodes are distinct members of the reference graph, the
pair is not an edge of the reference graph, and it has not been drawn
already in this call.  Exhausting the stream before the target count is the
`InsufficientNonEdgesError` condition. -/
def EdgeSplitter.negLoop (ref : Graph) :
    List (Nat × Nat) → List (Nat × Nat) → Nat →
    Except SplitError (List (Nat × Nat))
  | _, acc, 0 => .ok acc
  | [], _, _ + 1 => .error .insufficientNonEdges
  | c :: rest, acc, k + 1 =>
    if (c.1 != c.2) && ref.nodes.contains c.1 && ref.nodes.contains c.2 &&
        !(hasEdgeB ref c.1 c.2) && !(acc.any (fun d => sameEdge c d)) then
      EdgeSplitter.negLoop ref rest (acc ++ [c]) k
    else
      EdgeSplitter.negLoop ref rest acc (k + 1)

/-- Modelled from the spec (section 4.2, missing library code
`EdgeSplitter.train_test_split` with method "global"): remove
`round(p * |E|)` positive edges from `g`, draw equally many negative pairs
rejected against the reference graph `ref` (the graph handed to the
`EdgeSplitter` constructor as rejection reference), and return the reduced
graph together with the labelled sample set, positives first. -/
def EdgeSplitter.train_test_split (g ref : Graph) (p : ℚ) (keep : Bool)
    (posC negC : List (Nat × Nat)) :
    Except SplitError (Graph × List ((Nat × Nat) × Bool)) :=
  let target := numTarget p g.edges.length
  match EdgeSplitter.posLoop keep posC g [] target with
  | .error e => .error e
  | .ok (g2, pos) =>
    match EdgeSplitter.negLoop ref negC [] target with
    | .error e => .error e
    | .ok neg =>
      .ok (g2, pos.map (fun e => (e, true)) ++ neg.map (fun e => (e, false)))

/-- Positive sample pairs of a returned sample set. -/
def posSamples (samples : List ((Nat × Nat) × Bool)) : List (Nat × Nat) :=
  (samples.filter (fun s => s.2)).map (fun s => s.1)

/-- Negative sample pairs of a returned sample set. -/
def negSamples (samples : List ((Nat × Nat) × Bool)) : List (Nat × Nat) :=
  (samples.filter (fun s => !s.2)).map (fun s => s.1)

/-- Modelled from the spec (section 4.3, missing library code
`BiasedRandomWalk`): the unnormalised second-order transition weight for
stepping from current node v (arrived from previous node t) to a neighbour
x, with `w` the edge-weight function (constantly 1 when unweighted):
`w v x / p` when x returns to t, `w v x` when x is also a neighbour of t,
and `w v x / q` otherwise. -/
def nodeWeight (w : Nat → Nat → ℚ) (g : Graph) (p q : ℚ) (t v x : Nat) : ℚ :=
  if x = t then w v x / p
  else if hasEdgeB g t x then w v x
  else w v x / q

/-- Cumulative weight of the first k entries of a weight list. -/
def cumWeight (ws : List ℚ) (k : Nat) : ℚ := (ws.take k).sum

/-- Inverse-transform selection: the index of the first weight whose
cumulative sum exceeds the target value. -/
def pickAux : List ℚ → ℚ → Nat
  | [], _ => 0
  | w :: rest, t => if t < w then 0 else pickAux rest (t - w) + 1

/-- Modelled from the spec: sample an index from the distribution obtained
by normalising the weight list, driven by a choice value r intended to lie
in [0,1); the index is clamped into range so the sampler is total for every
choice value. -/
def pickIdx (ws : List ℚ) (r : ℚ) : Nat :=
  min (pickAux ws (r * ws.sum)) (ws.length - 1)

/-- Index chosen for a step beyond the first, using the second-order
transition weights over the neighbours of v. -/
def stepIdx (w : Nat → Nat → ℚ) (g : Graph) (p q : ℚ) (t v : Nat)
    (r : ℚ) : Nat :=
  pickIdx ((nbrs g v).map (nodeWeight w g p q t v)) r

/-- Node chosen for a step beyond the first. -/
def nextNode (w : Nat → Nat → ℚ) (g : Graph) (p q : ℚ) (t v : Nat)
    (r : ℚ) : Nat :=
  (nbrs g v).getD (stepIdx w g p q t v r) v

/-- Index chosen for the first step from a root: weights are the raw edge
weights of the root's incident edges (uniform when unweighted). -/
def firstIdx (w : Nat → Nat → ℚ) (g : Graph) (v : Nat) (r : ℚ) : Nat :=
  pickIdx ((nbrs g v).map (w v)) r

/-- Node chosen for the first step from a root. -/
def firstNode (w : Nat → Nat → ℚ) (g : Graph) (v : Nat) (r : ℚ) : Nat :=
  (nbrs g v).getD (firstIdx w g v r) v

/-- Modelled from the spec (section 4.3, missing library code): the steps of
a walk after the first, as a fuelled recursion.  At current node v (arrived
from t) the walk terminates early exactly when v has no neighbours;
otherwise the next node is drawn via the second-order weights, consuming one
choice value from the stream. -/
def walkTail (w : Nat → Nat → ℚ) (g : Graph) (p q : ℚ) :
    Nat → Nat → Nat → List ℚ → List Nat
  | 0, _, _, _ => []
  | fuel + 1, t, v, rs =>
    if (nbrs g v).isEmpty then []
    else
      let x := nextNode w g p q t v (rs.headD 0)
      x :: walkTail w g p q fuel v x rs.tail

/-- Modelled from the spec (section 4.3, missing library code): a single
walk of maximum length len (counting the root) from a root node, driven by
the choice stream rs.  The first step is weighted by raw edge weights, the
later steps by the second-order transition weights. -/
def walkFrom (w : Nat → Nat → ℚ) (g : Graph) (p q : ℚ) (len : Nat)
    (root : Nat) (rs : List ℚ) : List Nat :=
  match len with
  | 0 => []
  | 1 => [root]
  | fuel + 2 =>
    if (nbrs g root).isEmpty then [root]
    else
      let x := firstNode w g root (rs.headD 0)
      root :: x :: walkTail w g p q fuel root x rs.tail

/-- Modelled from the spec (section 7): error kind of the walk sampler. -/
inductive WalkError where
  | disconnectedRoot
deriving DecidableEq, Repr

/-- Linear congruential step of the explicit seeded random source. -/
def lcgNext (s : Nat) : Nat := (1103515245 * s + 12345) % 2147483648

/-- A finite stream of choice values in [0,1) expanded from an LCG state. -/
def lcgList : Nat → Nat → List ℚ
  | _, 0 => []
  | s, k + 1 => Rat.divInt (lcgNext s) 2147483648 :: lcgList (lcgNext s) k

/-- Choice stream for walk number k from a given root, derived from the
seed; per-walk streams are independent functions of (seed, root, k). -/
def rngStream (seed root k len : Nat) : List ℚ :=
  lcgList (seed + 1000003 * root + 7919 * k) len

/-- Modelled from the spec (section 4.3, missing library code
`BiasedRandomWalk.run`): fails with `DisconnectedRootError` when some
requested root is not a node of the graph, and otherwise produces n walks
per root, each of maximum length len, driven by streams derived from the
seed. -/
def BiasedRandomWalk.run (w : Nat → Nat → ℚ) (g : Graph) (roots : List Nat)
    (len n : Nat) (p q : ℚ) (seed : Nat) :
    Except WalkError (List (List Nat)) :=
  if roots.all (fun r => g.nodes.contains r) then
    .ok (roots.flatMap (fun root =>
      (List.range n).map (fun k =>
        walkFrom w g p q len root (rngStream seed root k len))))
  else .error .disconnectedRoot

/-- Modelled from the spec (section 4.4, missing library code behind
`GraphSAGELinkGenerator`): one hop of fixed-fan-out neighbour sampling.
Each frontier slot expands to exactly `fanout` slots: a sentinel slot
(`none`) or a frontier node with no neighbours expands to `fanout`
sentinels, and otherwise `fanout` neighbours are drawn with replacement,
the draws indexed by the integer choice oracle. -/
def sampleSlot (g : Graph) (fanout : Nat) (oracle : Nat → Nat → Nat)
    (idx : Nat) (u : Option Nat) : List (Option Nat) :=
  match u with
  | none => List.replicate fanout none
  | some v =>
    let ns := nbrs g v
    if ns.isEmpty then List.replicate fanout none
    else (List.range fanout).map
      (fun j => some (ns.getD (oracle idx j % ns.length) v))

/-- Expansion of a whole frontier, slot by slot, the draws indexed by the
slot position and the draw number. -/
def sampleFrontier (g : Graph) (fanout : Nat) (oracle : Nat → Nat → Nat) :
    Nat → List (Option Nat) → List (Option Nat)
  | _, [] => []
  | idx, u :: rest =>
    sampleSlot g fanout oracle idx u ++
      sampleFrontier g fanout oracle (idx + 1) rest

/-- Modelled from the spec (section 4.4, missing library code): multi-hop
sampling, one `sampleFrontier` pass per configured fan-out. -/
def sampleHops (g : Graph) :
    (Nat → Nat → Nat → Nat) → List Nat → List (Option Nat) →
    List (Option Nat)
  | _, [], frontier => frontier
  | oracle, f :: rest, frontier =>
    sampleHops g (fun h => oracle (h + 1)) rest
      (sampleFrontier g f (oracle 0) 0 frontier)

/-- Modelled from the spec (section 4.4, missing library code): the sampled
neighbourhoods for one seed node pair. -/
def samplePair (g : Graph) (oa ob : Nat → Nat → Nat → Nat)
    (fanouts : List Nat) (a b : Nat) :
    List (Option Nat) × List (Option Nat) :=
  (sampleHops g oa fanouts [some a], sampleHops g ob fanouts [some b])

/-- Elementwise product of two embedding vectors, from the notebook source
(`operator_hadamard`). -/
def operator_hadamard (u v : List ℚ) : List ℚ :=
  List.zipWith (fun a b => a * b) u v

/-- Elementwise average of two embedding vectors, from the notebook source
(`operator_avg`). -/
def operator_avg (u v : List ℚ) : List ℚ :=
  List.zipWith (fun a b => (a + b) / 2) u v

/-- Elementwise squared difference of two embedding vectors, from the
notebook source (`operator_l2`). -/
def operator_l2 (u v : List ℚ) : List ℚ :=
  List.zipWith (fun a b => (a - b) ^ 2) u v

/-- Elementwise absolute difference of two embedding vectors, from the
notebook source (`operator_l1`). -/
def operator_l1 (u v : List ℚ) : List ℚ :=
  List.zipWith (fun a b => |a - b|) u v

/-- Edge-feature construction from the notebook source (`transform`): apply
the binary operator to the embeddings of the two endpoints of every sampled
node pair. -/
def transform (model : Nat → List ℚ) (edge_data : List (Nat × Nat))
    (binary_operator : List ℚ → List ℚ → List ℚ) : List (List ℚ) :=
  edge_data.map (fun ids => binary_operator (model ids.1) (model ids.2))

/-- The chained splits of the node2vec notebook: the test split is taken on
the original graph, then the validation and train splits each take the
previously reduced graph as input while passing the original full graph as
the negative-sampling rejection reference, mirroring
`EdgeSplitter(g_test, g_nx)` and `EdgeSplitter(g_val, g_nx)`. -/
def node2vecChain (g : Graph) (p1 p2 p3 : ℚ)
    (pc1 nc1 pc2 nc2 pc3 nc3 : List (Nat × Nat)) :
    Except SplitError
      (Graph × List ((Nat × Nat) × Bool) × Graph ×
        List ((Nat × Nat) × Bool) × Graph × List ((Nat × Nat) × Bool)) :=
  match EdgeSplitter.train_test_split g g p1 false pc1 nc1 with
  | .error e => .error e
  | .ok (gtest, stest) =>
    match EdgeSplitter.train_test_split gtest g p2 false pc2 nc2 with
    | .error e => .error e
    | .ok (gval, sval) =>
      match EdgeSplitter.train_test_split gval g p3 false pc3 nc3 with
      | .error e => .error e
      | .ok (gtrain, strain) => .ok (gtest, stest, gval, sval, gtrain, strain)

/-- The chained splits of the graphsage notebook: the test split is taken on
the original graph, and the train split is taken on the reduced graph
G_test with the splitter constructed as `EdgeSplitter(G_test)` — no second
argument — so the rejection reference of the second stage is G_test itself,
not the original full graph. -/
def graphsageChain (g : Graph) (p1 p2 : ℚ)
    (pc1 nc1 pc2 nc2 : List (Nat × Nat)) :
    Except SplitError
      (Graph × List ((Nat × Nat) × Bool) × Graph ×
        List ((Nat × Nat) × Bool)) :=
  match EdgeSplitter.train_test_split g g p1 true pc1 nc1 with
  | .error e => .error e
  | .ok (gtest, stest) =>
    match EdgeSplitter.train_test_split gtest gtest p2 true pc2 nc2 with
    | .error e => .error e
    | .ok (gtrain, strain) => .ok (gtest, stest, gtrain, strain)

/-- Negative samples of the second stage of the graphsage chain, or the
empty list when the chain fails. -/
def graphsageStage2Negs (r : Except SplitError
    (Graph × List ((Nat × Nat) × Bool) × Graph ×
      List ((Nat × Nat) × Bool))) : List (Nat × Nat) :=
  match r with
  | .ok (_, _, _, strain) => negSamples strain
  | .error _ => []

/-- Shortcut equality instances for the chain result tuples, precomputed to
keep instance search shallow. -/
instance : DecidableEq (Graph × List ((Nat × Nat) × Bool)) :=
  instDecidableEqProd

instance : DecidableEq (List ((Nat × Nat) × Bool) × Graph ×
    List ((Nat × Nat) × Bool)) :=
  instDecidableEqProd

instance : DecidableEq (Graph × List ((Nat × Nat) × Bool) × Graph ×
    List ((Nat × Nat) × Bool)) :=
  instDecidableEqProd

instance : DecidableEq (List ((Nat × Nat) × Bool) × Graph ×
    List ((Nat × Nat) × Bool) × Graph × List ((Nat × Nat) × Bool)) :=
  instDecidableEqProd

instance : DecidableEq (Graph × List ((Nat × Nat) × Bool) × Graph ×
    List ((Nat × Nat) × Bool) × Graph × List ((Nat × Nat) × Bool)) :=
  instDecidableEqProd

/-- Concrete example input: a five-node cycle with three chords. -/
def chordalCycle5 : Graph :=
  ⟨[1, 2, 3, 4, 5],
    [(1, 2), (2, 3), (3, 4), (4, 5), (5, 1), (1, 3), (2, 4), (3, 5)]⟩

/-- Concrete example input: a four-node cycle with one chord. -/
def cycleChord4 : Graph :=
  ⟨[1, 2, 3, 4], [(1, 2), (2, 3), (3, 4), (4, 1), (1, 3)]⟩

/-- Reduced graph produced by the example split of `chordalCycle5`. -/
def g2ex : Graph :=
  ⟨[1, 2, 3, 4, 5],
    [(1, 2), (2, 3), (3, 4), (4, 5), (5, 1), (2, 4), (3, 5)]⟩

/-- Sample set produced by the example split of `chordalCycle5`. -/
def sEx : List ((Nat × Nat) × Bool) := [((1, 3), true), ((1, 4), false)]

/-- Reduced validation graph of the example node2vec chain. -/
def n2vVal : Graph :=
  ⟨[1, 2, 3, 4, 5], [(1, 2), (2, 3), (3, 4), (4, 5), (5, 1), (3, 5)]⟩

/-- Reduced train graph of the example node2vec chain. -/
def n2vTrain : Graph :=
  ⟨[1, 2, 3, 4, 5], [(1, 2), (2, 3), (3, 4), (4, 5), (5, 1)]⟩

/-- Path graph on three nodes, used as walk witness input. -/
def path3 : Graph := ⟨[1, 2, 3], [(1, 2), (2, 3)]⟩

/-- Graph with an isolated node 9, used for sampler and walk witnesses. -/
def isoGraph : Graph := ⟨[1, 2, 9], [(1, 2)]⟩

lemma removeEdge_nodes (g : Graph) (e : Nat × Nat) :
    (removeEdge g e).nodes = g.nodes := rfl

lemma hasEdgeB_removeEdge (g : Graph) (e : Nat × Nat) (a b : Nat)
    (h : hasEdgeB (removeEdge g e) a b = true) : hasEdgeB g a b = true := by
  simp only [hasEdgeB, removeEdge, List.any_eq_true] at h ⊢
  obtain ⟨f, hf, hsame⟩ := h
  exact ⟨f, (List.mem_filter.mp hf).1, hsame⟩

lemma posLoop_spec (keep : Bool) :
    ∀ (cands : List (Nat × Nat)) (g : Graph) (acc : List (Nat × Nat))
      (k : Nat) (g2 : Graph) (pos : List (Nat × Nat)),
      EdgeSplitter.posLoop keep cands g acc k = .ok (g2, pos) →
      ∃ new, pos = acc ++ new ∧
        pos.length = acc.length + k ∧
        g2.nodes = g.nodes ∧
        g2.edges = g.edges.filter
          (fun e => !(new.any (fun f => sameEdge e f))) ∧
        (∀ f ∈ new, hasEdgeB g f.1 f.2 = true) ∧
        (keep = true → countComponents g2 = countComponents g) := by
  intro cands
  induction cands with
  | nil =>
    intro g acc k g2 pos h
    cases k with
    | zero =>
      simp only [EdgeSplitter.posLoop, Except.ok.injEq, Prod.mk.injEq] at h
      obtain ⟨hg, hp⟩ := h
      subst hg; subst hp
      exact ⟨[], by simp, by simp, rfl, by simp, by simp, fun _ => rfl⟩
    | succ k => simp [EdgeSplitter.posLoop] at h
  | cons e rest ih =>
    intro g acc k g2 pos h
    cases k with
    | zero =>
      simp only [EdgeSplitter.posLoop, Except.ok.injEq, Prod.mk.injEq] at h
      obtain ⟨hg, hp⟩ := h
      subst hg; subst hp
      exact ⟨[], by simp, by simp, rfl, by simp, by simp, fun _ => rfl⟩
    | succ k =>
      rw [show EdgeSplitter.posLoop keep (e :: rest) g acc (k + 1) =
          if hasEdgeB g e.1 e.2 &&
              (!keep || countComponents (removeEdge g e) ==
                countComponents g) then
            EdgeSplitter.posLoop keep rest (removeEdge g e) (acc ++ [e]) k
          else EdgeSplitter.posLoop keep rest g acc (k + 1)
          from rfl] at h
      by_cases hc : (hasEdgeB g e.1 e.2 &&
          (!keep || countComponents (removeEdge g e) ==
            countComponents g)) = true
      · rw [if_pos hc] at h
        obtain ⟨hedge, hkeep⟩ := Bool.and_eq_true_iff.mp hc
        obtain ⟨new1, hpos, hlen, hnodes, hedges, hmem, hcomp⟩ :=
          ih (removeEdge g e) (acc ++ [e]) k g2 pos h
        refine ⟨e :: new1, ?_, ?_, hnodes, ?_, ?_, ?_⟩
        · simpa using hpos
        · simp only [hlen, List.length_append, List.length_cons,
            List.length_nil]
          omega
        · rw [hedges]
          show (List.filter _ (removeEdge g e).edges) = _
          simp only [removeEdge, List.filter_filter]
          refine List.filter_congr ?_
          intro x _
          simp only [List.any_cons, Bool.not_or]
          rw [Bool.and_comm]
        · intro f hf
          rcases List.mem_cons.mp hf with hfe | hfn
          · subst hfe; exact hedge
          · exact hasEdgeB_removeEdge g e f.1 f.2 (hmem f hfn)
        · intro hk
          rcases Bool.or_eq_true_iff.mp hkeep with hnk | hbeq
          · rw [hk] at hnk; simp at hnk
          · rw [hcomp hk]
            simpa using hbeq
      · rw [if_neg hc] at h
        obtain ⟨new1, hpos, hlen, hnodes, hedges, hmem, hcomp⟩ :=
          ih g acc (k + 1) g2 pos h
        exact ⟨new1, hpos, hlen, hnodes, hedges, hmem, hcomp⟩

lemma negLoop_spec (ref : Graph) :
    ∀ (cands acc : List (Nat × Nat)) (k : Nat) (neg : List (Nat × Nat)),
      EdgeSplitter.negLoop ref cands acc k = .ok neg →
      ∃ new, neg = acc ++ new ∧
        neg.length = acc.length + k ∧
        (∀ c ∈ new, hasEdgeB ref c.1 c.2 = false ∧ c.1 ≠ c.2 ∧
          c.1 ∈ ref.nodes ∧ c.2 ∈ ref.nodes) := by
  intro cands
  induction cands with
  | nil =>
    intro acc k neg h
    cases k with
    | zero =>
      simp only [EdgeSplitter.negLoop, Except.ok.injEq] at h
      subst h
      exact ⟨[], by simp, by simp, by simp⟩
    | succ k => simp [EdgeSplitter.negLoop] at h
  | cons c rest ih =>
    intro acc k neg h
    cases k with
    | zero =>
      simp only [EdgeSplitter.negLoop, Except.ok.injEq] at h
      subst h
      exact ⟨[], by simp, by simp, by simp⟩
    | succ k =>
      rw [show EdgeSplitter.negLoop ref (c :: rest) acc (k + 1) =
          if (c.1 != c.2) && ref.nodes.contains c.1 &&
              ref.nodes.contains c.2 && !(hasEdgeB ref c.1 c.2) &&
              !(acc.any (fun d => sameEdge c d)) then
            EdgeSplitter.negLoop ref rest (acc ++ [c]) k
          else EdgeSplitter.negLoop ref rest acc (k + 1)
          from rfl] at h
      by_cases hc : ((c.1 != c.2) && ref.nodes.contains c.1 &&
          ref.nodes.contains c.2 && !(hasEdgeB ref c.1 c.2) &&
          !(acc.any (fun d => sameEdge c d))) = true
      · rw [if_pos hc] at h
        simp only [Bool.and_eq_true] at hc
        obtain ⟨⟨⟨⟨hne, hm1⟩, hm2⟩, hnedge⟩, _⟩ := hc
        obtain ⟨new1, hneg, hlen, hmem⟩ := ih (acc ++ [c]) k neg h
        refine ⟨c :: new1, by simpa using hneg, ?_, ?_⟩
        · simp only [hlen, List.length_append, List.length_cons,
            List.length_nil]
          omega
        · intro d hd
          rcases List.mem_cons.mp hd with hdc | hdn
          · subst hdc
            refine ⟨by simpa using hnedge, by simpa using hne,
              by simpa using hm1, by simpa using hm2⟩
          · exact hmem d hdn
      · rw [if_neg hc] at h
        obtain ⟨new1, hneg, hlen, hmem⟩ := ih acc (k + 1) neg h
        exact ⟨new1, hneg, hlen, hmem⟩

lemma posLoop_error (keep : Bool) :
    ∀ (cands : List (Nat × Nat)) (g : Graph) (acc : List (Nat × Nat))
      (k : Nat) (err : SplitError),
      EdgeSplitter.posLoop keep cands g acc k = .error err →
      ∃ r, err = .insufficientEdges r := by
  intro cands
  induction cands with
  | nil =>
    intro g acc k err h
    cases k with
    | zero => simp [EdgeSplitter.posLoop] at h
    | succ k =>
      simp only [EdgeSplitter.posLoop, Except.error.injEq] at h
      exact ⟨acc.length, h.symm⟩
  | cons e rest ih =>
    intro g acc k err h
    cases k with
    | zero => simp [EdgeSplitter.posLoop] at h
    | succ k =>
      rw [show EdgeSplitter.posLoop keep (e :: rest) g acc (k + 1) =
          if hasEdgeB g e.1 e.2 &&
              (!keep || countComponents (removeEdge g e) ==
                countComponents g) then
            EdgeSplitter.posLoop keep rest (removeEdge g e) (acc ++ [e]) k
          else EdgeSplitter.posLoop keep rest g acc (k + 1)
          from rfl] at h
      by_cases hc : (hasEdgeB g e.1 e.2 &&
          (!keep || countComponents (removeEdge g e) ==
            countComponents g)) = true
      · rw [if_pos hc] at h
        exact ih (removeEdge g e) (acc ++ [e]) k err h
      · rw [if_neg hc] at h
        exact ih g acc (k + 1) err h

lemma posSamples_append (pos neg : List (Nat × Nat)) :
    posSamples (pos.map (fun e => (e, true)) ++
      neg.map (fun e => (e, false))) = pos := by
  simp [posSamples, List.filter_append, List.filter_map, Function.comp_def,
    List.map_map]

lemma negSamples_append (pos neg : List (Nat × Nat)) :
    negSamples (pos.map (fun e => (e, true)) ++
      neg.map (fun e => (e, false))) = neg := by
  simp [negSamples, List.filter_append, List.filter_map, Function.comp_def,
    List.map_map]

lemma train_test_split_spec (g ref : Graph) (p : ℚ) (keep : Bool)
    (posC negC : List (Nat × Nat)) (g2 : Graph)
    (samples : List ((Nat × Nat) × Bool))
    (h : EdgeSplitter.train_test_split g ref p keep posC negC =
      .ok (g2, samples)) :
    samples = (posSamples samples).map (fun e => (e, true)) ++
      (negSamples samples).map (fun e => (e, false)) ∧
    (posSamples samples).length = numTarget p g.edges.length ∧
    (negSamples samples).length = (posSamples samples).length ∧
    g2.nodes = g.nodes ∧
    g2.edges = g.edges.filter
      (fun e => !((posSamples samples).any (fun f => sameEdge e f))) ∧
    (∀ f ∈ posSamples samples, hasEdgeB g f.1 f.2 = true) ∧
    (∀ c ∈ negSamples samples, hasEdgeB ref c.1 c.2 = false ∧
      c.1 ≠ c.2 ∧ c.1 ∈ ref.nodes ∧ c.2 ∈ ref.nodes) ∧
    (keep = true → countComponents g2 = countComponents g) := by
  unfold EdgeSplitter.train_test_split at h
  simp only [] at h
  cases hpos : EdgeSplitter.posLoop keep posC g []
      (numTarget p g.edges.length) with
  | error e => rw [hpos] at h; simp at h
  | ok gp =>
    obtain ⟨gmid, pos⟩ := gp
    rw [hpos] at h
    cases hneg : EdgeSplitter.negLoop ref negC []
        (numTarget p g.edges.length) with
    | error e => rw [hneg] at h; simp at h
    | ok neg =>
      rw [hneg] at h
      simp only [Except.ok.injEq, Prod.mk.injEq] at h
      rcases h with ⟨rfl, rfl⟩
      obtain ⟨newp, hp1, hp2, hp3, hp4, hp5, hp6⟩ :=
        posLoop_spec keep posC g [] (numTarget p g.edges.length) gmid pos hpos
      obtain ⟨newn, hn1, hn2, hn3⟩ :=
        negLoop_spec ref negC [] (numTarget p g.edges.length) neg hneg
      simp only [List.nil_append] at hp1 hn1
      subst hp1
      subst hn1
      simp only [List.length_nil, Nat.zero_add] at hp2 hn2
      rw [posSamples_append, negSamples_append]
      exact ⟨rfl, hp2, by rw [hn2, hp2], hp3, hp4, hp5, hn3, hp6⟩

/-- C1: for every valid input graph and fraction p in (0,1), a successful
global train_test_split (the splitter constructed on g itself, as in
`EdgeSplitter(g_nx)`) returns a reduced graph whose edge set is exactly the
original edge set minus the positive samples, exactly `numTarget p |E|`
(that is, round(p·|E|)) positive samples and an equal number of negative
samples, where every positive sample is an edge of the original graph and
no negative sample is an edge of the original graph. -/
theorem edge_split_global_spec (g : Graph) (p : ℚ) (hp0 : 0 < p)
    (hp1 : p < 1) (keep : Bool) (posC negC : List (Nat × Nat)) (g2 : Graph)
    (samples : List ((Nat × Nat) × Bool))
    (h : EdgeSplitter.train_test_split g g p keep posC negC =
      .ok (g2, samples)) :
    g2.edges = g.edges.filter
      (fun e => !((posSamples samples).any (fun f => sameEdge e f))) ∧
    (posSamples samples).length = numTarget p g.edges.length ∧
    (negSamples samples).length = (posSamples samples).length ∧
    (∀ f ∈ posSamples samples, hasEdgeB g f.1 f.2 = true) ∧
    (∀ c ∈ negSamples samples, hasEdgeB g c.1 c.2 = false) := by
  obtain ⟨_, h2, h3, _, h5, h6, h7, _⟩ :=
    train_test_split_spec g g p keep posC negC g2 samples h
  exact ⟨h5, h2, h3, h6, fun c hc => (h7 c hc).1⟩

/-- Witness for C1: the concrete split of the chordal five-cycle with
p = 1/8 succeeds and satisfies every conjunct of the claim. -/
theorem edge_split_global_spec_witness :
    g2ex.edges = chordalCycle5.edges.filter
      (fun e => !((posSamples sEx).any (fun f => sameEdge e f))) ∧
    (posSamples sEx).length = numTarget (Rat.divInt 1 8)
      chordalCycle5.edges.length ∧
    (negSamples sEx).length = (posSamples sEx).length ∧
    (∀ f ∈ posSamples sEx, hasEdgeB chordalCycle5 f.1 f.2 = true) ∧
    (∀ c ∈ negSamples sEx, hasEdgeB chordalCycle5 c.1 c.2 = false) :=
  edge_split_global_spec chordalCycle5 (Rat.divInt 1 8) (by decide)
    (by decide) true [(1, 3)] [(1, 4)] g2ex sEx (by decide)

/-- C3: with keep_connected set, a successful split preserves the number of
connected components (so a connected input stays connected) and removes the
full target count of positive edges; when the positive-edge loop cannot
reach the target it fails with InsufficientEdgesError, and the split
operation propagates exactly that error instead of returning a partial
result. -/
theorem keep_connected_split (g ref : Graph) (p : ℚ)
    (posC negC : List (Nat × Nat)) :
    (∀ g2 samples,
      EdgeSplitter.train_test_split g ref p true posC negC =
        .ok (g2, samples) →
      countComponents g2 = countComponents g ∧
      (countComponents g = 1 → countComponents g2 = 1) ∧
      (posSamples samples).length = numTarget p g.edges.length) ∧
    (∀ err, EdgeSplitter.posLoop true posC g []
        (numTarget p g.edges.length) = .error err →
      (∃ r, err = SplitError.insufficientEdges r) ∧
      EdgeSplitter.train_test_split g ref p true posC negC = .error err) := by
  constructor
  · intro g2 samples h
    obtain ⟨_, h2, _, _, _, _, _, h8⟩ :=
      train_test_split_spec g ref p true posC negC g2 samples h
    have hc := h8 rfl
    exact ⟨hc, fun h1 => by rw [hc, h1], h2⟩
  · intro err herr
    refine ⟨posLoop_error true posC g [] (numTarget p g.edges.length)
      err herr, ?_⟩
    unfold EdgeSplitter.train_test_split
    simp only []
    rw [herr]

/-- Witness for C3: the concrete keep-connected split of the chordal
five-cycle succeeds, preserves connectivity, and removes the full target. -/
theorem keep_connected_split_witness :
    countComponents g2ex = countComponents chordalCycle5 ∧
    (countComponents chordalCycle5 = 1 → countComponents g2ex = 1) ∧
    (posSamples sEx).length = numTarget (Rat.divInt 1 8)
      chordalCycle5.edges.length :=
  (keep_connected_split chordalCycle5 chordalCycle5 (Rat.divInt 1 8)
    [(1, 3)] [(1, 4)]).1 g2ex sEx (by decide)

/-- C9: the splitter does not mutate its input graph: the reduced graph is
a fresh value whose node set equals the input's and whose edge list keeps
only input edges, while the removed positive samples are still edges of the
input graph after the call and absent from the reduced copy. -/
theorem splitter_frame (g ref : Graph) (p : ℚ) (keep : Bool)
    (posC negC : List (Nat × Nat)) (g2 : Graph)
    (samples : List ((Nat × Nat) × Bool))
    (h : EdgeSplitter.train_test_split g ref p keep posC negC =
      .ok (g2, samples)) :
    g2.nodes = g.nodes ∧
    (∀ e ∈ g2.edges, e ∈ g.edges) ∧
    (∀ f ∈ posSamples samples,
      hasEdgeB g f.1 f.2 = true ∧ hasEdgeB g2 f.1 f.2 = false) := by
  obtain ⟨_, _, _, h4, h5, h6, _, _⟩ :=
    train_test_split_spec g ref p keep posC negC g2 samples h
  refine ⟨h4, ?_, ?_⟩
  · intro e he
    rw [h5] at he
    exact (List.mem_filter.mp he).1
  · intro f hf
    refine ⟨h6 f hf, ?_⟩
    have hall : ∀ e ∈ g2.edges, sameEdge e (f.1, f.2) = false := by
      intro e he
      rw [h5] at he
      obtain ⟨_, hcond⟩ := List.mem_filter.mp he
      rw [Bool.not_eq_true'] at hcond
      exact Bool.eq_false_iff.mpr (List.any_eq_false.mp hcond f hf)
    rw [hasEdgeB]
    exact List.any_eq_false.mpr
      (fun x hx => Bool.eq_false_iff.mp (hall x hx))

/-- Witness for C9: the concrete split of the chordal five-cycle leaves the
node set intact, keeps only original edges, and removes the positive sample
from the reduced copy while it remains an edge of the input. -/
theorem splitter_frame_witness :
    g2ex.nodes = chordalCycle5.nodes ∧
    (∀ e ∈ g2ex.edges, e ∈ chordalCycle5.edges) ∧
    (∀ f ∈ posSamples sEx,
      hasEdgeB chordalCycle5 f.1 f.2 = true ∧
      hasEdgeB g2ex f.1 f.2 = false) :=
  splitter_frame chordalCycle5 chordalCycle5 (Rat.divInt 1 8) true
    [(1, 3)] [(1, 4)] g2ex sEx (by decide)

/-- Counterexample for C2: the graphsage notebook builds its second-stage
splitter as `EdgeSplitter(G_test)` with no reference argument, so negative
rejection at the train stage is against the reduced graph G_test only.  On
this concrete input the chain succeeds and its train-stage negative sample
(1,3) is an edge of the original full graph, contradicting the claim that
every stage's negatives are non-edges of the original full graph. -/
theorem graphsage_chain_negative_is_original_edge :
    (1, 3) ∈ graphsageStage2Negs (graphsageChain cycleChord4
      (Rat.divInt 1 5) (Rat.divInt 1 4)
      [(1, 3)] [(2, 4)] [(1, 2)] [(1, 3)]) ∧
    hasEdgeB cycleChord4 1 3 = true := by decide

/-- C2 (amended): in the node2vec notebook's chain, where every stage after
the first passes the original full graph as the negative-sampling rejection
reference, no negative sample of any stage is an edge of the original full
graph. -/
theorem node2vec_chain_negatives (g : Graph) (p1 p2 p3 : ℚ)
    (pc1 nc1 pc2 nc2 pc3 nc3 : List (Nat × Nat)) (gtest : Graph)
    (stest : List ((Nat × Nat) × Bool)) (gval : Graph)
    (sval : List ((Nat × Nat) × Bool)) (gtrain : Graph)
    (strain : List ((Nat × Nat) × Bool))
    (h : node2vecChain g p1 p2 p3 pc1 nc1 pc2 nc2 pc3 nc3 =
      .ok (gtest, stest, gval, sval, gtrain, strain)) :
    (∀ c ∈ negSamples stest, hasEdgeB g c.1 c.2 = false) ∧
    (∀ c ∈ negSamples sval, hasEdgeB g c.1 c.2 = false) ∧
    (∀ c ∈ negSamples strain, hasEdgeB g c.1 c.2 = false) := by
  unfold node2vecChain at h
  cases h1 : EdgeSplitter.train_test_split g g p1 false pc1 nc1 with
  | error e => rw [h1] at h; simp at h
  | ok r1 =>
    obtain ⟨g1, s1⟩ := r1
    rw [h1] at h
    dsimp only [] at h
    cases h2 : EdgeSplitter.train_test_split g1 g p2 false pc2 nc2 with
    | error e => rw [h2] at h; simp at h
    | ok r2 =>
      obtain ⟨g2, s2⟩ := r2
      rw [h2] at h
      dsimp only [] at h
      cases h3 : EdgeSplitter.train_test_split g2 g p3 false pc3 nc3 with
      | error e => rw [h3] at h; simp at h
      | ok r3 =>
        obtain ⟨g3, s3⟩ := r3
        rw [h3] at h
        dsimp only [] at h
        simp only [Except.ok.injEq, Prod.mk.injEq] at h
        obtain ⟨hga, hsa, hgb, hsb, hgc, hsc⟩ := h
        subst hga; subst hsa; subst hgb; subst hsb; subst hgc; subst hsc
        obtain ⟨_, _, _, _, _, _, hn1, _⟩ :=
          train_test_split_spec g g p1 false pc1 nc1 g1 s1 h1
        obtain ⟨_, _, _, _, _, _, hn2, _⟩ :=
          train_test_split_spec g1 g p2 false pc2 nc2 g2 s2 h2
        obtain ⟨_, _, _, _, _, _, hn3, _⟩ :=
          train_test_split_spec g2 g p3 false pc3 nc3 g3 s3 h3
        exact ⟨fun c hc => (hn1 c hc).1, fun c hc => (hn2 c hc).1,
          fun c hc => (hn3 c hc).1⟩

/-- Witness for C2 (amended): the concrete node2vec chain on the chordal
five-cycle succeeds and no negative sample of any stage is an edge of the
original graph. -/
theorem node2vec_chain_negatives_witness :
    (∀ c ∈ negSamples sEx, hasEdgeB chordalCycle5 c.1 c.2 = false) ∧
    (∀ c ∈ negSamples [((2, 4), true), ((2, 5), false)],
      hasEdgeB chordalCycle5 c.1 c.2 = false) ∧
    (∀ c ∈ negSamples [((3, 5), true), ((1, 4), false)],
      hasEdgeB chordalCycle5 c.1 c.2 = false) :=
  node2vec_chain_negatives chordalCycle5 (Rat.divInt 1 8) (Rat.divInt 1 7)
    (Rat.divInt 1 6) [(1, 3)] [(1, 4)] [(2, 4)] [(2, 5)] [(3, 5)] [(1, 4)]
    g2ex sEx n2vVal [((2, 4), true), ((2, 5), false)] n2vTrain
    [((3, 5), true), ((1, 4), false)] (by decide)

lemma zipWith_comm_of_comm (f : ℚ → ℚ → ℚ)
    (hf : ∀ a b, f a b = f b a) :
    ∀ u v : List ℚ, List.zipWith f u v = List.zipWith f v u := by
  intro u
  induction u with
  | nil => intro v; cases v <;> rfl
  | cons a u ih =>
    intro v
    cases v with
    | nil => rfl
    | cons b v => simp [List.zipWith, hf a b, ih v]

lemma transform_swap (model : Nat → List ℚ) (ed : List (Nat × Nat))
    (op : List ℚ → List ℚ → List ℚ) (hop : ∀ a b, op a b = op b a) :
    transform model (ed.map Prod.swap) op = transform model ed op := by
  induction ed with
  | nil => rfl
  | cons e t ih =>
    simp only [transform, List.map_cons, List.map_map] at ih ⊢
    rw [show (Prod.swap e).1 = e.2 from rfl,
      show (Prod.swap e).2 = e.1 from rfl, hop (model e.2) (model e.1), ih]

/-- C10: each of the four binary edge-feature operators of the notebook is
symmetric in its arguments on equal-length vectors, and consequently the
edge feature produced by transform does not depend on the orientation of
the node pair. -/
theorem operators_symmetric :
    (∀ u v : List ℚ, u.length = v.length →
      operator_hadamard u v = operator_hadamard v u ∧
      operator_avg u v = operator_avg v u ∧
      operator_l1 u v = operator_l1 v u ∧
      operator_l2 u v = operator_l2 v u) ∧
    (∀ (model : Nat → List ℚ) (ed : List (Nat × Nat)),
      transform model (ed.map Prod.swap) operator_hadamard =
        transform model ed operator_hadamard ∧
      transform model (ed.map Prod.swap) operator_avg =
        transform model ed operator_avg ∧
      transform model (ed.map Prod.swap) operator_l1 =
        transform model ed operator_l1 ∧
      transform model (ed.map Prod.swap) operator_l2 =
        transform model ed operator_l2) := by
  have hh : ∀ u v : List ℚ, operator_hadamard u v = operator_hadamard v u :=
    zipWith_comm_of_comm _ (fun a b => mul_comm a b)
  have ha : ∀ u v : List ℚ, operator_avg u v = operator_avg v u :=
    zipWith_comm_of_comm _ (fun a b => by rw [add_comm])
  have h1 : ∀ u v : List ℚ, operator_l1 u v = operator_l1 v u :=
    zipWith_comm_of_comm _ (fun a b => abs_sub_comm a b)
  have h2 : ∀ u v : List ℚ, operator_l2 u v = operator_l2 v u :=
    zipWith_comm_of_comm _ (fun a b => by ring)
  refine ⟨fun u v _ => ⟨hh u v, ha u v, h1 u v, h2 u v⟩,
    fun model ed => ⟨transform_swap model ed _ hh,
      transform_swap model ed _ ha, transform_swap model ed _ h1,
      transform_swap model ed _ h2⟩⟩

/-- Witness for C10: symmetry of the four operators and the orientation
independence of transform, instantiated on concrete vectors and pairs. -/
theorem operators_symmetric_witness :
    (operator_hadamard [1, 2] [3, 5] = operator_hadamard [3, 5] [1, 2] ∧
     operator_avg [1, 2] [3, 5] = operator_avg [3, 5] [1, 2] ∧
     operator_l1 [1, 2] [3, 5] = operator_l1 [3, 5] [1, 2] ∧
     operator_l2 [1, 2] [3, 5] = operator_l2 [3, 5] [1, 2]) ∧
    transform (fun _ => [1, 2]) ([((1 : Nat), (2 : Nat))].map Prod.swap)
        operator_l2 =
      transform (fun _ => [1, 2]) [((1 : Nat), (2 : Nat))] operator_l2 :=
  ⟨operators_symmetric.1 [1, 2] [3, 5] (by decide),
    (operators_symmetric.2 (fun _ => [1, 2]) [(1, 2)]).2.2.2⟩

lemma cumWeight_succ (w : ℚ) (ws : List ℚ) (k : Nat) :
    cumWeight (w :: ws) (k + 1) = w + cumWeight ws k := by
  simp [cumWeight, List.take_succ_cons]

lemma cumWeight_nonneg (ws : List ℚ) (hpos : ∀ x ∈ ws, 0 < x) (k : Nat) :
    0 ≤ cumWeight ws k := by
  refine List.sum_nonneg ?_
  intro x hx
  exact le_of_lt (hpos x (List.mem_of_mem_take hx))

lemma pickAux_lt_length (ws : List ℚ) (hpos : ∀ x ∈ ws, 0 < x) (t : ℚ)
    (h0 : 0 ≤ t) (ht : t < ws.sum) : pickAux ws t < ws.length := by
  induction ws generalizing t with
  | nil =>
    simp only [List.sum_nil] at ht
    exact absurd (lt_of_le_of_lt h0 ht) (lt_irrefl 0)
  | cons w rest ih =>
    by_cases hw : t < w
    · simp [pickAux, hw]
    · have hw2 : w ≤ t := le_of_not_lt hw
      have hrec : pickAux rest (t - w) < rest.length := by
        refine ih (fun x hx => hpos x (List.mem_cons_of_mem w hx)) (t - w)
          (by linarith) ?_
        simp only [List.sum_cons] at ht
        linarith
      simp only [pickAux, if_neg hw, List.length_cons]
      omega

lemma pickAux_eq_iff (ws : List ℚ) (hpos : ∀ x ∈ ws, 0 < x) (t : ℚ)
    (h0 : 0 ≤ t) (ht : t < ws.sum) (i : Nat) :
    pickAux ws t = i ↔ cumWeight ws i ≤ t ∧ t < cumWeight ws (i + 1) := by
  induction ws generalizing t i with
  | nil =>
    simp only [List.sum_nil] at ht
    exact absurd (lt_of_le_of_lt h0 ht) (lt_irrefl 0)
  | cons w rest ih =>
    have hwpos : 0 < w := hpos w (List.mem_cons_self w rest)
    have hrestpos : ∀ x ∈ rest, 0 < x :=
      fun x hx => hpos x (List.mem_cons_of_mem w hx)
    by_cases hw : t < w
    · simp only [pickAux, if_pos hw]
      cases i with
      | zero =>
        simp only [cumWeight, List.take_zero, List.sum_nil,
          cumWeight_succ]
        constructor
        · intro _
          exact ⟨h0, by simpa [cumWeight] using hw⟩
        · intro _; trivial
      | succ j =>
        simp only [cumWeight_succ]
        constructor
        · intro hz; exact absurd hz.symm (Nat.succ_ne_zero j)
        · intro ⟨hc1, _⟩
          have : 0 ≤ cumWeight rest j := cumWeight_nonneg rest hrestpos j
          linarith
    · have hw2 : w ≤ t := le_of_not_lt hw
      have htr : t - w < rest.sum := by
        simp only [List.sum_cons] at ht; linarith
      simp only [pickAux, if_neg hw]
      cases i with
      | zero =>
        constructor
        · intro hz; exact absurd hz (Nat.succ_ne_zero _)
        · intro ⟨_, hc2⟩
          have hw1 : cumWeight (w :: rest) (0 + 1) = w := by
            simp [cumWeight, List.take_succ_cons]
          rw [hw1] at hc2
          exact absurd hc2 (not_lt.mpr hw2)
      | succ j =>
        rw [Nat.succ_inj, ih hrestpos (t - w) (by linarith) htr j,
          cumWeight_succ, cumWeight_succ]
        constructor
        · intro ⟨hc1, hc2⟩; exact ⟨by linarith, by linarith⟩
        · intro ⟨hc1, hc2⟩; exact ⟨by linarith, by linarith⟩

lemma sum_pos_of_mem (ws : List ℚ) (hpos : ∀ x ∈ ws, 0 < x)
    (hne : ws ≠ []) : 0 < ws.sum := by
  cases ws with
  | nil => exact absurd rfl hne
  | cons w rest =>
    have := hpos w (List.mem_cons_self w rest)
    have hr : 0 ≤ rest.sum :=
      List.sum_nonneg (fun x hx =>
        le_of_lt (hpos x (List.mem_cons_of_mem w hx)))
    simp only [List.sum_cons]
    linarith

lemma pickIdx_eq_iff (ws : List ℚ) (hpos : ∀ x ∈ ws, 0 < x)
    (hne : ws ≠ []) (r : ℚ) (h0 : 0 ≤ r) (h1 : r < 1) (i : Nat) :
    pickIdx ws r = i ↔
      cumWeight ws i ≤ r * ws.sum ∧ r * ws.sum < cumWeight ws (i + 1) := by
  have hsum : 0 < ws.sum := sum_pos_of_mem ws hpos hne
  have ht0 : 0 ≤ r * ws.sum := mul_nonneg h0 (le_of_lt hsum)
  have ht1 : r * ws.sum < ws.sum := by
    calc r * ws.sum < 1 * ws.sum := by
          exact mul_lt_mul_of_pos_right h1 hsum
      _ = ws.sum := one_mul _
  have hlt := pickAux_lt_length ws hpos (r * ws.sum) ht0 ht1
  have hmin : pickIdx ws r = pickAux ws (r * ws.sum) := by
    unfold pickIdx
    exact Nat.min_eq_left (Nat.le_pred_of_lt hlt)
  rw [hmin]
  exact pickAux_eq_iff ws hpos (r * ws.sum) ht0 ht1 i

lemma map_const_one (w : Nat → Nat → ℚ) (v : Nat) (l : List Nat)
    (hw1 : ∀ a b, w a b = 1) : l.map (w v) = List.replicate l.length 1 := by
  induction l with
  | nil => rfl
  | cons a t ih => simp [hw1, ih, List.replicate_succ]

lemma cumWeight_replicate_one (n k : Nat) :
    cumWeight (List.replicate n (1 : ℚ)) k = ((min k n : Nat) : ℚ) := by
  rw [cumWeight, List.take_replicate, List.sum_replicate]
  simp [nsmul_eq_mul]

lemma sum_replicate_one (n : Nat) :
    (List.replicate n (1 : ℚ)).sum = (n : ℚ) := by
  rw [List.sum_replicate]
  simp [nsmul_eq_mul]

/-- C5: at every step beyond the first, having arrived at v from t, the
next node is sampled from the distribution over v's neighbours obtained by
normalising the unnormalised second-order weights nodeWeight (edge weight
over p on return to t, plain edge weight on a triangle, edge weight over q
otherwise): the choice values that select the i-th neighbour are exactly
those with r·total in the cumulative-weight window of that neighbour, an
interval whose normalised length is nodeWeight(i)/total; the first step
from a root uses the raw edge weights, which is the uniform distribution on
the root's neighbours when the graph is unweighted. -/
theorem step_distribution (w : Nat → Nat → ℚ) (g : Graph) (p q : ℚ)
    (t v : Nat) (r : ℚ) (i : Nat)
    (hpos : ∀ x ∈ nbrs g v, 0 < nodeWeight w g p q t v x)
    (hposw : ∀ x ∈ nbrs g v, 0 < w v x)
    (hne : nbrs g v ≠ []) (h0 : 0 ≤ r) (h1 : r < 1) :
    (stepIdx w g p q t v r = i ↔
      cumWeight ((nbrs g v).map (nodeWeight w g p q t v)) i ≤
        r * ((nbrs g v).map (nodeWeight w g p q t v)).sum ∧
      r * ((nbrs g v).map (nodeWeight w g p q t v)).sum <
        cumWeight ((nbrs g v).map (nodeWeight w g p q t v)) (i + 1)) ∧
    nextNode w g p q t v r = (nbrs g v).getD (stepIdx w g p q t v r) v ∧
    (firstIdx w g v r = i ↔
      cumWeight ((nbrs g v).map (w v)) i ≤ r * ((nbrs g v).map (w v)).sum ∧
      r * ((nbrs g v).map (w v)).sum <
        cumWeight ((nbrs g v).map (w v)) (i + 1)) ∧
    ((∀ a b, w a b = 1) →
      (firstIdx w g v r = i ↔
        (i : ℚ) ≤ r * (nbrs g v).length ∧
        r * (nbrs g v).length < (i : ℚ) + 1)) := by
  have hmap : ∀ (f : Nat → ℚ), (∀ x ∈ nbrs g v, 0 < f x) →
      ∀ x ∈ (nbrs g v).map f, 0 < x := by
    intro f hf x hx
    obtain ⟨y, hy, rfl⟩ := List.mem_map.mp hx
    exact hf y hy
  have hne1 : ∀ (f : Nat → ℚ), (nbrs g v).map f ≠ [] := by
    intro f hmapnil
    exact hne (List.map_eq_nil_iff.mp hmapnil)
  refine ⟨pickIdx_eq_iff _ (hmap _ hpos) (hne1 _) r h0 h1 i, rfl,
    pickIdx_eq_iff _ (hmap _ hposw) (hne1 _) r h0 h1 i, ?_⟩
  intro hw1
  have hconst := map_const_one w v (nbrs g v) hw1
  rw [show firstIdx w g v r =
      pickIdx ((nbrs g v).map (w v)) r from rfl, hconst]
  set n := (nbrs g v).length with hn
  have hnpos : 0 < n := by
    rw [hn]
    exact List.length_pos.mpr hne
  have hcast : (0 : ℚ) < (n : ℚ) := by exact_mod_cast hnpos
  have hiff : pickIdx (List.replicate n (1 : ℚ)) r = i ↔
      ((min i n : Nat) : ℚ) ≤ r * (n : ℚ) ∧
      r * (n : ℚ) < ((min (i + 1) n : Nat) : ℚ) := by
    have := pickIdx_eq_iff (List.replicate n (1 : ℚ))
      (fun x hx => by
        rw [List.eq_of_mem_replicate hx]; exact zero_lt_one)
      (by
        intro hnil
        rw [List.eq_nil_iff_forall_not_mem] at hnil
        exact hnil 1 (List.mem_replicate.mpr ⟨Nat.ne_of_gt hnpos, rfl⟩))
      r h0 h1 i
    rwa [cumWeight_replicate_one, cumWeight_replicate_one,
      sum_replicate_one] at this
  rw [hiff]
  by_cases hin : i < n
  · rw [Nat.min_eq_left (Nat.le_of_lt hin),
      Nat.min_eq_left (Nat.succ_le_of_lt hin)]
    push_cast
    exact Iff.rfl
  · have hni : n ≤ i := Nat.le_of_not_lt hin
    have hrn : r * (n : ℚ) < (n : ℚ) := by
      calc r * (n : ℚ) < 1 * (n : ℚ) := mul_lt_mul_of_pos_right h1 hcast
        _ = (n : ℚ) := one_mul _
    constructor
    · intro ⟨hc1, _⟩
      rw [Nat.min_eq_right hni] at hc1
      exact absurd (lt_of_le_of_lt hc1 hrn) (lt_irrefl _)
    · intro ⟨hc1, _⟩
      have : (n : ℚ) ≤ (i : ℚ) := by exact_mod_cast hni
      exact absurd (lt_of_le_of_lt (le_trans this hc1) hrn) (lt_irrefl _)

/-- Witness for C5: on the three-node path with unit weights and p = q = 1,
the first step from node 2 with choice value 0 selects index 0, and the
uniform characterisation holds. -/
theorem step_distribution_witness :
    firstIdx (fun _ _ => (1 : ℚ)) path3 2 0 = 0 ↔
      ((0 : Nat) : ℚ) ≤ 0 * (nbrs path3 2).length ∧
      0 * (nbrs path3 2).length < ((0 : Nat) : ℚ) + 1 :=
  (step_distribution (fun _ _ => (1 : ℚ)) path3 1 1 1 2 0 0
    (by
      intro x hx
      rw [show nbrs path3 2 = [1, 3] from by decide] at hx
      simp only [List.mem_cons, List.not_mem_nil, or_false] at hx
      rcases hx with h | h <;> subst h
      · simp [nodeWeight]
      · simp [nodeWeight, show hasEdgeB path3 1 3 = false from by decide])
    (by intro x _; simp)
    (by decide) (by decide) (by decide)).2.2.2 (fun _ _ => rfl)

lemma pickIdx_le (ws : List ℚ) (r : ℚ) : pickIdx ws r ≤ ws.length - 1 :=
  Nat.min_le_right _ _

lemma getD_mem_of_ne_nil (ns : List Nat) (i : Nat) (d : Nat)
    (hi : i < ns.length) : ns.getD i d ∈ ns := by
  rw [List.getD_eq_getElem?_getD, List.getElem?_eq_getElem hi]
  exact List.getElem_mem hi

lemma nextNode_mem (w : Nat → Nat → ℚ) (g : Graph) (p q : ℚ) (t v : Nat)
    (r : ℚ) (hne : nbrs g v ≠ []) : nextNode w g p q t v r ∈ nbrs g v := by
  have hlen : 0 < (nbrs g v).length := List.length_pos.mpr hne
  have hidx : stepIdx w g p q t v r < (nbrs g v).length := by
    have := pickIdx_le ((nbrs g v).map (nodeWeight w g p q t v)) r
    rw [List.length_map] at this
    calc stepIdx w g p q t v r ≤ (nbrs g v).length - 1 := this
      _ < (nbrs g v).length := Nat.sub_lt hlen Nat.one_pos
  exact getD_mem_of_ne_nil _ _ _ hidx

lemma firstNode_mem (w : Nat → Nat → ℚ) (g : Graph) (v : Nat) (r : ℚ)
    (hne : nbrs g v ≠ []) : firstNode w g v r ∈ nbrs g v := by
  have hlen : 0 < (nbrs g v).length := List.length_pos.mpr hne
  have hidx : firstIdx w g v r < (nbrs g v).length := by
    have := pickIdx_le ((nbrs g v).map (w v)) r
    rw [List.length_map] at this
    calc firstIdx w g v r ≤ (nbrs g v).length - 1 := this
      _ < (nbrs g v).length := Nat.sub_lt hlen Nat.one_pos
  exact getD_mem_of_ne_nil _ _ _ hidx

lemma mem_nbrs_adj (g : Graph) (v x : Nat) (h : x ∈ nbrs g v) :
    hasEdgeB g v x = true :=
  (List.mem_filter.mp h).2

lemma walkTail_chain (w : Nat → Nat → ℚ) (g : Graph) (p q : ℚ) :
    ∀ (fuel t v : Nat) (rs : List ℚ),
      List.Chain (fun a b => hasEdgeB g a b = true) v
        (walkTail w g p q fuel t v rs) := by
  intro fuel
  induction fuel with
  | zero => intro t v rs; exact List.Chain.nil
  | succ fuel ih =>
    intro t v rs
    rw [walkTail]
    by_cases hemp : (nbrs g v).isEmpty
    · rw [if_pos hemp]; exact List.Chain.nil
    · rw [if_neg hemp]
      have hne : nbrs g v ≠ [] := by
        intro hnil; rw [hnil] at hemp; exact hemp rfl
      exact List.Chain.cons
        (mem_nbrs_adj g v _ (nextNode_mem w g p q t v (rs.headD 0) hne))
        (ih v _ rs.tail)

lemma walkTail_length (w : Nat → Nat → ℚ) (g : Graph) (p q : ℚ) :
    ∀ (fuel t v : Nat) (rs : List ℚ),
      (walkTail w g p q fuel t v rs).length ≤ fuel := by
  intro fuel
  induction fuel with
  | zero => intro t v rs; rw [walkTail]; exact Nat.le_refl 0
  | succ fuel ih =>
    intro t v rs
    rw [walkTail]
    by_cases hemp : (nbrs g v).isEmpty
    · rw [if_pos hemp]; exact Nat.zero_le _
    · rw [if_neg hemp]
      simp only [List.length_cons]
      exact Nat.succ_le_succ (ih v _ rs.tail)

lemma walkTail_short (w : Nat → Nat → ℚ) (g : Graph) (p q : ℚ) :
    ∀ (fuel t v : Nat) (rs : List ℚ),
      (walkTail w g p q fuel t v rs).length < fuel →
      nbrs g ((walkTail w g p q fuel t v rs).getLastD v) = [] := by
  intro fuel
  induction fuel with
  | zero => intro t v rs h; exact absurd h (Nat.not_lt_zero _)
  | succ fuel ih =>
    intro t v rs h
    rw [walkTail] at h ⊢
    by_cases hemp : (nbrs g v).isEmpty
    · rw [if_pos hemp]
      rw [if_pos hemp] at h
      simpa using List.isEmpty_iff.mp hemp
    · rw [if_neg hemp]
      rw [if_neg hemp] at h
      simp only [List.length_cons, Nat.succ_lt_succ_iff] at h
      rw [List.getLastD_cons]
      exact ih v _ rs.tail h

/-- C4: every walk produced from a root starts with that root, has length
at most the requested length (counting the root), has every consecutive
pair of nodes an edge of the graph, and terminates early only when its
last node has no neighbours. -/
theorem walk_valid (w : Nat → Nat → ℚ) (g : Graph) (p q : ℚ) (len : Nat)
    (root : Nat) (rs : List ℚ) (hlen : 1 ≤ len) :
    (walkFrom w g p q len root rs).head? = some root ∧
    (walkFrom w g p q len root rs).length ≤ len ∧
    List.Chain' (fun a b => hasEdgeB g a b = true)
      (walkFrom w g p q len root rs) ∧
    ((walkFrom w g p q len root rs).length < len →
      nbrs g ((walkFrom w g p q len root rs).getLastD root) = []) := by
  match len with
  | 0 => exact absurd hlen (by omega)
  | 1 =>
    rw [walkFrom]
    exact ⟨rfl, Nat.le_refl 1, List.chain'_singleton root,
      fun h => absurd h (lt_irrefl 1)⟩
  | fuel + 2 =>
    rw [walkFrom]
    by_cases hemp : (nbrs g root).isEmpty
    · rw [if_pos hemp]
      refine ⟨rfl, by simp, List.chain'_singleton root, fun _ => ?_⟩
      simpa using List.isEmpty_iff.mp hemp
    · rw [if_neg hemp]
      have hne : nbrs g root ≠ [] := by
        intro hnil; rw [hnil] at hemp; exact hemp rfl
      have hadj : hasEdgeB g root (firstNode w g root (rs.headD 0)) = true :=
        mem_nbrs_adj g root _ (firstNode_mem w g root (rs.headD 0) hne)
      refine ⟨rfl, ?_, ?_, ?_⟩
      · simp only [List.length_cons]
        have := walkTail_length w g p q fuel root
          (firstNode w g root (rs.headD 0)) rs.tail
        omega
      · show List.Chain (fun a b => hasEdgeB g a b = true) root _
        exact List.Chain.cons hadj (walkTail_chain w g p q fuel root _ rs.tail)
      · intro h
        simp only [List.length_cons, Nat.succ_lt_succ_iff] at h
        rw [List.getLastD_cons, List.getLastD_cons]
        exact walkTail_short w g p q fuel root _ rs.tail h

/-- Witness for C4: a concrete walk of maximum length 3 on the three-node
path satisfies all four conjuncts. -/
theorem walk_valid_witness :
    (walkFrom (fun _ _ => (1 : ℚ)) path3 1 1 3 1 [0, 0, 0]).head? =
      some 1 ∧
    (walkFrom (fun _ _ => (1 : ℚ)) path3 1 1 3 1 [0, 0, 0]).length ≤ 3 ∧
    List.Chain' (fun a b => hasEdgeB path3 a b = true)
      (walkFrom (fun _ _ => (1 : ℚ)) path3 1 1 3 1 [0, 0, 0]) ∧
    ((walkFrom (fun _ _ => (1 : ℚ)) path3 1 1 3 1 [0, 0, 0]).length < 3 →
      nbrs path3
        ((walkFrom (fun _ _ => (1 : ℚ)) path3 1 1 3 1 [0, 0, 0]).getLastD 1) =
        []) :=
  walk_valid (fun _ _ => (1 : ℚ)) path3 1 1 3 1 [0, 0, 0] (by decide)

/-- C6: the walk sampler is deterministic: two single-threaded executions
with the same seed (and the same graph, weights, roots and parameters)
produce identical walk sequences.  In this embedding the run is a pure
function of its arguments and an explicit seeded random source, so equal
seeds give equal outputs. -/
theorem run_deterministic (w : Nat → Nat → ℚ) (g : Graph)
    (roots : List Nat) (len n : Nat) (p q : ℚ) (s1 s2 : Nat)
    (h : s1 = s2) :
    BiasedRandomWalk.run w g roots len n p q s1 =
      BiasedRandomWalk.run w g roots len n p q s2 := by
  rw [h]

/-- Witness for C6: two runs with seed 42 on the three-node path coincide. -/
theorem run_deterministic_witness :
    BiasedRandomWalk.run (fun _ _ => (1 : ℚ)) path3 [1, 2, 3] 3 2 1 1 42 =
      BiasedRandomWalk.run (fun _ _ => (1 : ℚ)) path3 [1, 2, 3] 3 2 1 1 42 :=
  run_deterministic (fun _ _ => (1 : ℚ)) path3 [1, 2, 3] 3 2 1 1 42 42 rfl

/-- C7: the walk sampler fails with DisconnectedRootError exactly when some
requested root is not a node of the graph; with all roots present it
succeeds, and an in-graph root of degree zero yields single-node walks,
since a walk from a neighbourless root is just that root. -/
theorem run_root_errors (w : Nat → Nat → ℚ) (g : Graph)
    (roots : List Nat) (len n : Nat) (p q : ℚ) (seed : Nat) :
    (BiasedRandomWalk.run w g roots len n p q seed =
        .error .disconnectedRoot ↔ ¬ ∀ r ∈ roots, r ∈ g.nodes) ∧
    ((∀ r ∈ roots, r ∈ g.nodes) →
      BiasedRandomWalk.run w g roots len n p q seed =
        .ok (roots.flatMap (fun root => (List.range n).map (fun k =>
          walkFrom w g p q len root (rngStream seed root k len))))) ∧
    (∀ root (rs : List ℚ), nbrs g root = [] → 1 ≤ len →
      walkFrom w g p q len root rs = [root]) := by
  have hguard : (roots.all (fun r => g.nodes.contains r) = true) ↔
      ∀ r ∈ roots, r ∈ g.nodes := by
    rw [List.all_eq_true]
    constructor
    · intro h r hr
      simpa using h r hr
    · intro h r hr
      simpa using h r hr
  refine ⟨?_, ?_, ?_⟩
  · constructor
    · intro h hall
      rw [BiasedRandomWalk.run, if_pos (hguard.mpr hall)] at h
      exact absurd h (by simp)
    · intro hnall
      rw [BiasedRandomWalk.run, if_neg ?_]
      intro hg
      exact hnall (hguard.mp hg)
  · intro hall
    rw [BiasedRandomWalk.run, if_pos (hguard.mpr hall)]
  · intro root rs hdeg hlen
    match len, hlen with
    | 1, _ => rw [walkFrom]
    | fuel + 2, _ =>
      rw [walkFrom, if_pos ?_]
      rw [hdeg]
      rfl

/-- Witness for C7: on the graph with isolated node 9, a run rooted at the
out-of-graph node 7 fails, a run rooted at all in-graph nodes succeeds, and
every walk from the isolated node 9 is the single-node walk. -/
theorem run_root_errors_witness :
    BiasedRandomWalk.run (fun _ _ => (1 : ℚ)) isoGraph [7] 3 1 1 1 5 =
      .error .disconnectedRoot ∧
    BiasedRandomWalk.run (fun _ _ => (1 : ℚ)) isoGraph [1, 2, 9] 3 1 1 1 5 =
      .ok ([1, 2, 9].flatMap (fun root => (List.range 1).map (fun k =>
        walkFrom (fun _ _ => (1 : ℚ)) isoGraph 1 1 3 root
          (rngStream 5 root k 3)))) ∧
    walkFrom (fun _ _ => (1 : ℚ)) isoGraph 1 1 3 9 [0, 0, 0] = [9] :=
  ⟨(run_root_errors (fun _ _ => (1 : ℚ)) isoGraph [7] 3 1 1 1 5).1.mpr
      (by decide),
    (run_root_errors (fun _ _ => (1 : ℚ)) isoGraph [1, 2, 9] 3 1 1 1 5).2.1
      (by decide),
    (run_root_errors (fun _ _ => (1 : ℚ)) isoGraph [1, 2, 9] 3 1 1 1 5).2.2
      9 [0, 0, 0] (by decide) (by decide)⟩

lemma sampleSlot_length (g : Graph) (fanout : Nat)
    (oracle : Nat → Nat → Nat) (idx : Nat) (u : Option Nat) :
    (sampleSlot g fanout oracle idx u).length = fanout := by
  cases u with
  | none => simp [sampleSlot]
  | some v =>
    rw [sampleSlot]
    by_cases hemp : (nbrs g v).isEmpty
    · simp [hemp]
    · simp [hemp]

lemma sampleFrontier_length (g : Graph) (fanout : Nat)
    (oracle : Nat → Nat → Nat) :
    ∀ (idx : Nat) (frontier : List (Option Nat)),
      (sampleFrontier g fanout oracle idx frontier).length =
        frontier.length * fanout := by
  intro idx frontier
  induction frontier generalizing idx with
  | nil => simp [sampleFrontier]
  | cons u rest ih =>
    rw [sampleFrontier]
    simp only [List.length_append, sampleSlot_length, ih (idx + 1),
      List.length_cons]
    ring

lemma sampleHops_length (g : Graph) :
    ∀ (fanouts : List Nat) (oracle : Nat → Nat → Nat → Nat)
      (frontier : List (Option Nat)),
      (sampleHops g oracle fanouts frontier).length =
        frontier.length * fanouts.prod := by
  intro fanouts
  induction fanouts with
  | nil => intro oracle frontier; simp [sampleHops]
  | cons f rest ih =>
    intro oracle frontier
    rw [sampleHops, ih, sampleFrontier_length, List.prod_cons]
    ring

lemma sampleFrontier_none (g : Graph) (fanout : Nat)
    (oracle : Nat → Nat → Nat) :
    ∀ (m idx : Nat),
      sampleFrontier g fanout oracle idx (List.replicate m none) =
        List.replicate (m * fanout) none := by
  intro m
  induction m with
  | zero => intro idx; simp [sampleFrontier]
  | succ m ih =>
    intro idx
    rw [List.replicate_succ, sampleFrontier]
    rw [show sampleSlot g fanout oracle idx none =
      List.replicate fanout none from rfl]
    rw [ih (idx + 1), show (m + 1) * fanout = fanout + m * fanout by ring,
      List.replicate_add]

lemma sampleHops_none (g : Graph) :
    ∀ (fanouts : List Nat) (oracle : Nat → Nat → Nat → Nat) (m : Nat),
      sampleHops g oracle fanouts (List.replicate m none) =
        List.replicate (m * fanouts.prod) none := by
  intro fanouts
  induction fanouts with
  | nil => intro oracle m; simp [sampleHops]
  | cons f rest ih =>
    intro oracle m
    rw [sampleHops, sampleFrontier_none, ih, List.prod_cons]
    ring_nf

/-- C8: for every graph, oracle and fan-out list, the sampled neighbourhood
of each node of a seed pair has exactly the product of the fan-outs leaves
regardless of graph sparsity, and a frontier node with no neighbours is
padded with the sentinel placeholder which propagates through all deeper
hops. -/
theorem sampler_shape (g : Graph) (oa ob : Nat → Nat → Nat → Nat)
    (fanouts : List Nat) (a b : Nat) :
    ((samplePair g oa ob fanouts a b).1.length = fanouts.prod ∧
     (samplePair g oa ob fanouts a b).2.length = fanouts.prod) ∧
    (∀ (v f : Nat) (rest : List Nat) (oracle : Nat → Nat → Nat → Nat),
      nbrs g v = [] →
      sampleHops g oracle (f :: rest) [some v] =
        List.replicate (f * rest.prod) none) ∧
    (∀ (fanouts2 : List Nat) (oracle : Nat → Nat → Nat → Nat) (m : Nat),
      sampleHops g oracle fanouts2 (List.replicate m none) =
        List.replicate (m * fanouts2.prod) none) := by
  refine ⟨⟨?_, ?_⟩, ?_, fun f2 o m => sampleHops_none g f2 o m⟩
  · rw [show (samplePair g oa ob fanouts a b).1 =
      sampleHops g oa fanouts [some a] from rfl, sampleHops_length]
    simp
  · rw [show (samplePair g oa ob fanouts a b).2 =
      sampleHops g ob fanouts [some b] from rfl, sampleHops_length]
    simp
  · intro v f rest oracle hdeg
    rw [sampleHops]
    have hslot : sampleFrontier g f (oracle 0) 0 [some v] =
        List.replicate f none := by
      rw [show ([some v] : List (Option Nat)) = some v :: [] from rfl,
        sampleFrontier, sampleFrontier]
      rw [sampleSlot]
      simp only [hdeg, List.isEmpty_nil, if_pos, List.append_nil]
    rw [hslot, show (List.replicate f (none : Option Nat)) =
      List.replicate f none from rfl]
    rw [sampleHops_none]

/-- Witness for C8: on the graph with isolated node 9 and fan-outs [2, 3],
both members of the seed pair get exactly six leaves, and the hops rooted
at the neighbourless node 9 are all sentinels. -/
theorem sampler_shape_witness :
    ((samplePair isoGraph (fun _ _ _ => 0) (fun _ _ _ => 0) [2, 3]
        1 2).1.length = [2, 3].prod ∧
     (samplePair isoGraph (fun _ _ _ => 0) (fun _ _ _ => 0) [2, 3]
        1 2).2.length = [2, 3].prod) ∧
    sampleHops isoGraph (fun _ _ _ => 0) [2, 3] [some 9] =
      List.replicate (2 * [3].prod) none :=
  ⟨(sampler_shape isoGraph (fun _ _ _ => 0) (fun _ _ _ => 0) [2, 3] 1 2).1,
    (sampler_shape isoGraph (fun _ _ _ => 0) (fun _ _ _ => 0) [2, 3]
      1 2).2.1 9 2 [3] (fun _ _ _ => 0) (by decide)⟩
